import Mathlib

/-!
Shallow embedding of the gluten-free scanner pipeline
(src/safety-algorithm.js and src/enhanced-ocr.js) and proofs about it.

Strings are modelled as `List Char`; JavaScript `null`/`undefined` string
values are modelled as `none : Option (List Char)`; JavaScript numbers are
modelled as `ℚ`; a thrown JavaScript exception is modelled as `Except.error`.
-/

namespace GFA

abbrev Str := List Char

/-- Coerce a Lean string literal to the `List Char` representation. -/
def str (s : String) : Str := s.data

/-! ## Character classes

`isWS` models the JavaScript `\s` class (restricted to the ASCII whitespace
characters, which are the only ones the pipeline's data can contain);
`isWordChar` models `\w` (used for `\b` boundaries). -/

def isWS (c : Char) : Bool :=
  c = ' ' || c = '\t' || c = '\n' || c = '\r' || c = Char.ofNat 11 || c = Char.ofNat 12

def isWordChar (c : Char) : Bool :=
  (c ≥ 'a' && c ≤ 'z') || (c ≥ 'A' && c ≤ 'Z') || (c ≥ '0' && c ≤ '9') || c = '_'

/-- JavaScript `String.prototype.toLowerCase`, characterwise on ASCII. -/
def lowerStr (s : Str) : Str := s.map Char.toLower

/-- JavaScript `String.prototype.trim`: strip whitespace from both ends. -/
def trimWS (s : Str) : Str :=
  ((s.dropWhile isWS).reverse.dropWhile isWS).reverse

/-! ## SafetyClassifier — src/safety-algorithm.js, `analyzeIngredientsForSafety` -/

structure FlaggedIngredient where
  name : String
  confidence : ℚ
deriving DecidableEq, Repr

/-- The fields of the `data` object that `analyzeIngredientsForSafety` reads
or writes.  `flagged_ingredients` is `Option`al because the JavaScript code
guards with `data.flagged_ingredients && ...` (a `null`/missing list). -/
structure SafetyData where
  is_gluten_free : Bool
  message : String
  flagged_ingredients : Option (List FlaggedIngredient)
deriving DecidableEq, Repr

/-- src/safety-algorithm.js lines 4-14: the first `if` statement of
`analyzeIngredientsForSafety` (`data.flagged_ingredients && length > 0`,
then the confidence test). -/
def applyFlagRules (data : SafetyData) : SafetyData :=
  let flagged := data.flagged_ingredients.getD []
  if flagged.length > 0 then
    if flagged.any (fun i => i.confidence > 1/2) then
      { data with is_gluten_free := false,
                  message := "Potentially unsafe: Contains suspicious ingredients." }
    else
      { data with message := "Exercise caution: Some ingredients need verification." }
  else data

/-- src/safety-algorithm.js lines 17-19: the cross-contamination suffix. -/
def appendContaminationNote (d : SafetyData) : SafetyData :=
  if d.is_gluten_free then
    { d with message := d.message ++ " However, always check for cross-contamination risks." }
  else d

/-- src/safety-algorithm.js lines 2-22.  The JavaScript mutates `data` in
place through the two statements and returns it; we model the sequence of
statements as function composition. -/
def analyzeIngredientsForSafety (data : SafetyData) : SafetyData :=
  appendContaminationNote (applyFlagRules data)

/-! ## ImageNormalizer dimension bound — src/enhanced-ocr.js lines 82-99 -/

def MAX_SIZE : ℚ := 1500

/-- src/enhanced-ocr.js lines 83-99: the size-limiting step of
`preprocessImage`'s `getImageData` (identical in both the IMG and the
URL branch).  Returns the `(width, height)` the canvas is given. -/
def normalizeDims (width height : ℚ) : ℚ × ℚ :=
  if width > MAX_SIZE ∨ height > MAX_SIZE then
    let scale := min (MAX_SIZE / width) (MAX_SIZE / height)
    (width * scale, height * scale)
  else (width, height)

/-! ## Theorems for the safety classifier -/

/-- Claim C1: whenever any flagged ingredient has confidence strictly greater
than 0.5, `analyzeIngredientsForSafety` forces `is_gluten_free = false` and
sets the message to "Potentially unsafe: Contains suspicious ingredients."
(no cross-contamination suffix is appended, since the verdict is no longer
gluten-free). -/
theorem safety_unsafe_override (d : SafetyData) (l : List FlaggedIngredient)
    (hl : d.flagged_ingredients = some l)
    (hc : ∃ i ∈ l, i.confidence > 1/2) :
    (analyzeIngredientsForSafety d).is_gluten_free = false ∧
    (analyzeIngredientsForSafety d).message =
      "Potentially unsafe: Contains suspicious ingredients." := by
  obtain ⟨i, hi, hgt⟩ := hc
  have hany : l.any (fun i => i.confidence > 1/2) = true := by
    simp only [List.any_eq_true, decide_eq_true_eq]
    exact ⟨i, hi, hgt⟩
  have hlen : l.length > 0 := by
    cases l with
    | nil => cases hi
    | cons a t => simp
  have h1 : applyFlagRules d =
      { d with is_gluten_free := false,
               message := "Potentially unsafe: Contains suspicious ingredients." } := by
    simp only [applyFlagRules, hl, Option.getD_some]
    rw [if_pos hlen, if_pos hany]
  unfold analyzeIngredientsForSafety
  rw [h1]
  unfold appendContaminationNote
  simp

/-- Witness for C1 at a concrete input: flagged ingredient "wheat starch"
with confidence 0.9 and upstream verdict gluten-free. -/
theorem safety_unsafe_override_witness :
    (analyzeIngredientsForSafety
        ⟨true, "ok", some [⟨"wheat starch", 9/10⟩]⟩).is_gluten_free = false ∧
    (analyzeIngredientsForSafety
        ⟨true, "ok", some [⟨"wheat starch", 9/10⟩]⟩).message =
      "Potentially unsafe: Contains suspicious ingredients." :=
  safety_unsafe_override ⟨true, "ok", some [⟨"wheat starch", 9/10⟩]⟩
    [⟨"wheat starch", 9/10⟩] rfl ⟨⟨"wheat starch", 9/10⟩, by simp, by norm_num⟩

/-- Claim C2: with a non-empty flagged list whose confidences are all ≤ 0.5,
the classifier keeps the upstream `is_gluten_free` (and the flagged list)
unchanged and replaces the message with the caution text, appending the
cross-contamination suffix exactly when the verdict is still gluten-free. -/
theorem safety_caution_keeps_verdict (d : SafetyData) (l : List FlaggedIngredient)
    (hl : d.flagged_ingredients = some l) (hne : l ≠ [])
    (hc : ∀ i ∈ l, i.confidence ≤ 1/2) :
    (analyzeIngredientsForSafety d).is_gluten_free = d.is_gluten_free ∧
    (analyzeIngredientsForSafety d).flagged_ingredients = d.flagged_ingredients ∧
    (analyzeIngredientsForSafety d).message =
      (if d.is_gluten_free then
        "Exercise caution: Some ingredients need verification. However, always check for cross-contamination risks."
      else "Exercise caution: Some ingredients need verification.") := by
  have hany : l.any (fun i => i.confidence > 1/2) = false := by
    simp only [List.any_eq_false, decide_eq_true_eq]
    intro i hi
    exact not_lt.mpr (hc i hi)
  have hlen : l.length > 0 := by
    cases l with
    | nil => exact absurd rfl hne
    | cons a t => simp
  have h1 : applyFlagRules d =
      { d with message := "Exercise caution: Some ingredients need verification." } := by
    simp only [applyFlagRules, hl, Option.getD_some]
    rw [if_pos hlen, if_neg (by rw [hany]; exact Bool.false_ne_true)]
  unfold analyzeIngredientsForSafety
  rw [h1]
  unfold appendContaminationNote
  cases hg : d.is_gluten_free <;> simp [hl, hg]

/-- Witness for C2 at a concrete input: one low-confidence flagged
ingredient, upstream verdict gluten-free. -/
theorem safety_caution_keeps_verdict_witness :
    (analyzeIngredientsForSafety ⟨true, "ok", some [⟨"spice", 3/10⟩]⟩).is_gluten_free = true ∧
    (analyzeIngredientsForSafety ⟨true, "ok", some [⟨"spice", 3/10⟩]⟩).flagged_ingredients =
      some [⟨"spice", 3/10⟩] ∧
    (analyzeIngredientsForSafety ⟨true, "ok", some [⟨"spice", 3/10⟩]⟩).message =
      "Exercise caution: Some ingredients need verification. However, always check for cross-contamination risks." := by
  have h := safety_caution_keeps_verdict ⟨true, "ok", some [⟨"spice", 3/10⟩]⟩
    [⟨"spice", 3/10⟩] rfl (by simp) (by intro i hi; simp at hi; rw [hi]; norm_num)
  simpa using h

/-- Claim C10: the classifier is monotone toward unsafety: it never upgrades
an upstream `is_gluten_free = false` verdict to `true`, whatever the flagged
list. -/
theorem safety_monotone_unsafe (d : SafetyData)
    (h : d.is_gluten_free = false) :
    (analyzeIngredientsForSafety d).is_gluten_free = false := by
  have h1 : (applyFlagRules d).is_gluten_free = false := by
    cases hfi : d.flagged_ingredients with
    | none =>
      simp only [applyFlagRules, hfi, Option.getD_none]
      simpa using h
    | some l =>
      simp only [applyFlagRules, hfi, Option.getD_some]
      by_cases hlen : l.length > 0
      · by_cases hany : l.any (fun i => i.confidence > 1/2) = true
        · rw [if_pos hlen, if_pos hany]
        · simp only [Bool.not_eq_true] at hany
          rw [if_pos hlen, if_neg (by rw [hany]; exact Bool.false_ne_true)]
          exact h
      · rw [if_neg hlen]
        exact h
  unfold analyzeIngredientsForSafety appendContaminationNote
  rw [if_neg (by rw [h1]; exact Bool.false_ne_true)]
  exact h1

/-- Witness for C10 at a concrete input. -/
theorem safety_monotone_unsafe_witness :
    (analyzeIngredientsForSafety ⟨false, "no", some []⟩).is_gluten_free = false :=
  safety_monotone_unsafe ⟨false, "no", some []⟩ rfl

/-! ## Theorems for the dimension bound (C9) -/

/-- Claim C9: whenever a source dimension exceeds `MAX_SIZE = 1500`, the
downscale by `scale = min (MAX/width) (MAX/height)` makes the larger output
edge exactly 1500 and preserves the aspect ratio exactly (in `ℚ`, so "within
rounding" of the floating-point code). -/
theorem normalizeDims_bounds (w h : ℚ) (hw : 0 < w) (hh : 0 < h)
    (hbig : MAX_SIZE < w ∨ MAX_SIZE < h) :
    max (normalizeDims w h).1 (normalizeDims w h).2 = MAX_SIZE ∧
    (normalizeDims w h).1 * h = (normalizeDims w h).2 * w := by
  have hcond : w > MAX_SIZE ∨ h > MAX_SIZE := hbig
  have hmaxpos : 0 < max w h := lt_max_of_lt_left hw
  have hms : (0 : ℚ) < MAX_SIZE := by norm_num [MAX_SIZE]
  have hscale : min (MAX_SIZE / w) (MAX_SIZE / h) = MAX_SIZE / max w h := by
    rcases le_total w h with hwh | hwh
    · rw [max_eq_right hwh, min_eq_right]
      exact div_le_div_of_nonneg_left (by norm_num [MAX_SIZE]) hw hwh
    · rw [max_eq_left hwh, min_eq_left]
      exact div_le_div_of_nonneg_left (by norm_num [MAX_SIZE]) hh hwh
  constructor
  · show max (normalizeDims w h).1 (normalizeDims w h).2 = MAX_SIZE
    rw [normalizeDims, if_pos hcond]
    simp only [hscale]
    have : max (w * (MAX_SIZE / max w h)) (h * (MAX_SIZE / max w h)) =
        max w h * (MAX_SIZE / max w h) := by
      rcases le_total w h with hwh | hwh
      · rw [max_eq_right hwh, max_eq_right]
        exact mul_le_mul_of_nonneg_right hwh (div_nonneg hms.le hh.le)
      · rw [max_eq_left hwh, max_eq_left]
        exact mul_le_mul_of_nonneg_right hwh (div_nonneg hms.le hw.le)
    rw [this]
    field_simp
  · rw [normalizeDims, if_pos hcond]
    ring

/-- Witness for C9: the spec's 2400×1800 scenario scales to 1500×1125. -/
theorem normalizeDims_bounds_witness :
    (0 : ℚ) < 2400 ∧ (0 : ℚ) < 1800 ∧ (MAX_SIZE < (2400 : ℚ) ∨ MAX_SIZE < (1800 : ℚ)) ∧
    max (normalizeDims 2400 1800).1 (normalizeDims 2400 1800).2 = MAX_SIZE ∧
    (normalizeDims 2400 1800).1 * 1800 = (normalizeDims 2400 1800).2 * 2400 :=
  ⟨by norm_num, by norm_num, Or.inl (by norm_num [MAX_SIZE]),
    normalizeDims_bounds 2400 1800 (by norm_num) (by norm_num)
      (Or.inl (by norm_num [MAX_SIZE]))⟩

/-! ## ResultFusion — src/enhanced-ocr.js lines 280-313, `combineOcrResults`

A recognition result record; `text` is `Option`al because the JavaScript
guards both `result.text && ...` and `if (!result.text) continue`. -/

structure OcrData where
  text : Option Str
  confidence : ℚ
deriving DecidableEq, Repr

def notWS (c : Char) : Bool := !isWS c

/-- Scanner for `s.split(/\s+/)`.  `inSep = true` while inside a whitespace
run; `cur` is the reversed current chunk (always `[]` when `inSep`). -/
def splitRunsAux : Str → Bool → Str → List Str
  | [], _, cur => [cur.reverse]
  | c :: rest, inSep, cur =>
    if isWS c then
      if inSep then splitRunsAux rest true cur
      else cur.reverse :: splitRunsAux rest true []
    else splitRunsAux rest false (c :: cur)

/-- JavaScript `s.split(/\s+/)`: the substrings between maximal runs of
whitespace (a leading or trailing run contributes an empty chunk, exactly as
in JavaScript). -/
def splitRuns (l : Str) : List Str := splitRunsAux l false []

/-- The whitespace-separated tokens of a string: the non-empty chunks of
`splitRuns`. -/
def tokensOf (l : Str) : List Str :=
  (splitRuns l).filter (fun w => !w.isEmpty)

/-- src/enhanced-ocr.js lines 282-290: the first loop of
`combineOcrResults` — pick the first seen strictly-longest text
(`result.text && result.text.length > maxLength`; `maxLength` always equals
the base's length, and an empty text can never exceed it, so the truthiness
guard is the `Option` match). -/
def longestBase (results : List OcrData) : Str :=
  (results.foldl (fun (acc : Str × Nat) r =>
    match r.text with
    | none => acc
    | some t => if t.length > acc.2 then (t, t.length) else acc) ([], 0)).1

/-- JavaScript `word.trim().toLowerCase()` followed by the
`word.length > 2` filter, applied to every chunk of `result.text.split(/\s+/)`
(src/enhanced-ocr.js lines 297-300). -/
def wordsOf (t : Str) : List Str :=
  ((splitRuns t).map (fun w => lowerStr (trimWS w))).filter (fun w => w.length > 2)

/-- JavaScript `Set.prototype.add`: insertion-ordered, deduplicating. -/
def addUnique (acc : List Str) (w : Str) : List Str :=
  if w ∈ acc then acc else acc ++ [w]

/-- src/enhanced-ocr.js lines 293-303: the `allWords` set, in insertion
order (`if (!result.text) continue` skips `null`/`undefined` and `""`). -/
def collectWords (results : List OcrData) : List Str :=
  results.foldl (fun acc r =>
    match r.text with
    | none => acc
    | some t => if t.isEmpty then acc else (wordsOf t).foldl addUnique acc) []

/-- JavaScript `hay.includes(needle)` (substring test). -/
def strIncludes (hay needle : Str) : Bool :=
  match hay with
  | [] => needle.isEmpty
  | _ :: t => needle.isPrefixOf hay || strIncludes t needle

/-- src/enhanced-ocr.js lines 306-310: append each collected word that is
not already a case-insensitive substring of the base. -/
def appendMissingWord (base w : Str) : Str :=
  if strIncludes (lowerStr base) (lowerStr w) then base else base ++ ' ' :: w

/-- src/enhanced-ocr.js lines 280-313, `combineOcrResults`. -/
def combineOcrResults (results : List OcrData) : Str :=
  (collectWords results).foldl appendMissingWord (longestBase results)

/-! ### Token lemmas -/

theorem splitRunsAux_skip : ∀ l : Str,
    splitRunsAux l true [] = splitRunsAux (l.dropWhile isWS) false [] := by
  intro l
  induction l with
  | nil => rfl
  | cons c rest ih =>
    by_cases hc : isWS c = true
    · rw [List.dropWhile_cons_of_pos hc]
      simpa [splitRunsAux, hc] using ih
    · have hc' : isWS c = false := by simpa using hc
      rw [List.dropWhile_cons_of_neg (by simp [hc'])]
      simp [splitRunsAux, hc']

theorem splitRunsAux_go_nil : ∀ {l : Str}, l.dropWhile notWS = [] →
    ∀ cur : Str, splitRunsAux l false cur = [cur.reverse ++ l.takeWhile notWS] := by
  intro l
  induction l with
  | nil => intro _ cur; simp [splitRunsAux]
  | cons c rest ih =>
    intro h cur
    by_cases hn : notWS c = true
    · rw [List.dropWhile_cons_of_pos hn] at h
      have hws : isWS c = false := by simpa [notWS] using hn
      rw [List.takeWhile_cons_of_pos hn]
      simp only [splitRunsAux, hws]
      rw [if_neg (by simp)]
      rw [ih h (c :: cur)]
      simp
    · rw [List.dropWhile_cons_of_neg (by simpa using hn)] at h
      simp at h

theorem splitRunsAux_go_cons : ∀ {l : Str} {c2 : Char} {t : Str},
    l.dropWhile notWS = c2 :: t →
    ∀ cur : Str, splitRunsAux l false cur =
      (cur.reverse ++ l.takeWhile notWS) :: splitRunsAux t true [] := by
  intro l
  induction l with
  | nil => intro c2 t h cur; simp at h
  | cons c rest ih =>
    intro c2 t h cur
    by_cases hn : notWS c = true
    · rw [List.dropWhile_cons_of_pos hn] at h
      have hws : isWS c = false := by simpa [notWS] using hn
      rw [List.takeWhile_cons_of_pos hn]
      simp only [splitRunsAux, hws]
      rw [if_neg (by simp)]
      rw [ih h (c :: cur)]
      simp
    · have hws : isWS c = true := by
        cases hb : isWS c with
        | false => exact absurd (by simp [notWS, hb]) hn
        | true => rfl
      rw [List.dropWhile_cons_of_neg (by simpa using hn)] at h
      injection h with h1 h2
      subst h1
      subst h2
      rw [List.takeWhile_cons_of_neg (by simpa using hn)]
      simp only [splitRunsAux, hws]
      rw [if_pos (by simp), if_neg (by simp)]
      simp

theorem splitRuns_rest_nil {l : Str} (h : l.dropWhile notWS = []) :
    splitRuns l = [l.takeWhile notWS] := by
  rw [splitRuns, splitRunsAux_go_nil h]
  simp

theorem splitRuns_rest_cons {l : Str} {c : Char} {t : Str}
    (h : l.dropWhile notWS = c :: t) :
    splitRuns l = l.takeWhile notWS :: splitRuns (t.dropWhile isWS) := by
  rw [splitRuns, splitRunsAux_go_cons h, splitRunsAux_skip]
  simp [splitRuns]

theorem tokensOf_nil : tokensOf [] = [] := by
  have h : ([] : Str).dropWhile notWS = [] := rfl
  rw [tokensOf, splitRuns_rest_nil h]
  rfl

theorem tokensOf_ws_cons {c : Char} {l : Str} (hc : isWS c = true) :
    tokensOf (c :: l) = tokensOf (l.dropWhile isWS) := by
  have hnot : notWS c = false := by simp [notWS, hc]
  have hdrop : (c :: l).dropWhile notWS = c :: l :=
    List.dropWhile_cons_of_neg (by simp [hnot])
  have htake : (c :: l).takeWhile notWS = [] :=
    List.takeWhile_cons_of_neg (by simp [hnot])
  rw [tokensOf, splitRuns_rest_cons hdrop, htake]
  rfl

theorem tokensOf_dropWhile_ws (l : Str) :
    tokensOf (l.dropWhile isWS) = tokensOf l := by
  induction l with
  | nil => rfl
  | cons c t ih =>
    by_cases hc : isWS c = true
    · rw [List.dropWhile_cons_of_pos hc, tokensOf_ws_cons hc]
    · rw [List.dropWhile_cons_of_neg (by simp [hc])]

theorem tokensOf_ws_cons' {c : Char} {l : Str} (hc : isWS c = true) :
    tokensOf (c :: l) = tokensOf l := by
  rw [tokensOf_ws_cons hc, tokensOf_dropWhile_ws]

theorem dropWhile_head_false {α : Type} {p : α → Bool} :
    ∀ {l : List α} {c : α} {t : List α}, l.dropWhile p = c :: t → p c = false := by
  intro l
  induction l with
  | nil => intro c t h; simp at h
  | cons a l ih =>
    intro c t h
    by_cases hp : p a = true
    · rw [List.dropWhile_cons_of_pos hp] at h
      exact ih h
    · rw [List.dropWhile_cons_of_neg (by simp [hp])] at h
      injection h with h1 h2
      subst h1
      simpa using hp

/-- Every chunk produced by `splitRuns` occurs inside the original string. -/
theorem splitRuns_chunk_within :
    ∀ (n : Nat) (l : Str), l.length ≤ n → ∀ w ∈ splitRuns l, w <:+: l := by
  intro n
  induction n with
  | zero =>
    intro l hl w hw
    have hnil : l = [] := List.length_eq_zero.mp (Nat.le_zero.mp hl)
    subst hnil
    rw [splitRuns_rest_nil (l := []) (by decide)] at hw
    simp only [List.mem_singleton] at hw
    subst hw
    exact ⟨[], [], rfl⟩
  | succ n ih =>
    intro l hl w hw
    cases hrest : l.dropWhile notWS with
    | nil =>
      rw [splitRuns_rest_nil hrest] at hw
      simp only [List.mem_singleton] at hw
      subst hw
      exact (List.takeWhile_prefix notWS).isInfix
    | cons c t =>
      rw [splitRuns_rest_cons hrest] at hw
      rcases List.mem_cons.mp hw with hw | hw
      · subst hw
        exact (List.takeWhile_prefix notWS).isInfix
      · have hlt : (c :: t).length ≤ l.length :=
          List.Sublist.length_le (hrest ▸ List.dropWhile_sublist notWS)
        have hlen : (t.dropWhile isWS).length ≤ n := by
          have h2 : (t.dropWhile isWS).length ≤ t.length :=
            List.Sublist.length_le (List.dropWhile_sublist isWS)
          simp only [List.length_cons] at hlt
          omega
        have h1 : w <:+: t.dropWhile isWS := ih (t.dropWhile isWS) hlen w hw
        have h2 : (t.dropWhile isWS) <:+: t := (List.dropWhile_suffix isWS).isInfix
        have h3a : t <:+: (c :: t) := ⟨[c], [], by simp⟩
        have h3b : (c :: t) <:+: l := by
          rw [← hrest]
          exact (List.dropWhile_suffix notWS).isInfix
        exact h1.trans (h2.trans (h3a.trans h3b))

/-- Every chunk of `splitRuns` occurs inside the original string. -/
theorem splitRuns_within {l : Str} {w : Str} (hw : w ∈ splitRuns l) : w <:+: l :=
  splitRuns_chunk_within l.length l (le_refl _) w hw

/-- Splitting at an explicit separator: the tokens of `a ++ ' ' :: b` are
the tokens of `a` followed by the tokens of `b`. -/
theorem tokensOf_append_sep :
    ∀ (n : Nat) (a : Str), a.length ≤ n → ∀ b : Str,
      tokensOf (a ++ ' ' :: b) = tokensOf a ++ tokensOf b := by
  intro n
  induction n with
  | zero =>
    intro a ha b
    have hnil : a = [] := List.length_eq_zero.mp (Nat.le_zero.mp ha)
    subst hnil
    rw [List.nil_append, tokensOf_ws_cons' (by rfl), tokensOf_nil, List.nil_append]
  | succ n ih =>
    intro a ha b
    cases a with
    | nil =>
      rw [List.nil_append, tokensOf_ws_cons' (by rfl), tokensOf_nil, List.nil_append]
    | cons c a' =>
      by_cases hc : isWS c = true
      · rw [List.cons_append, tokensOf_ws_cons' hc, tokensOf_ws_cons' hc]
        exact ih a' (by simpa using ha) b
      · have hcn : notWS c = true := by simp [notWS, hc]
        cases hr : (c :: a').dropWhile notWS with
        | nil =>
          have hall : ∀ x ∈ c :: a', notWS x = true := by
            intro x hx
            have : (c :: a').takeWhile notWS = c :: a' := by
              have := List.takeWhile_append_dropWhile notWS (c :: a')
              rw [hr, List.append_nil] at this
              exact this
            exact List.mem_takeWhile_imp (this ▸ hx)
          have htk : ((c :: a') ++ ' ' :: b).takeWhile notWS = c :: a' := by
            rw [List.takeWhile_append_of_pos hall,
              List.takeWhile_cons_of_neg (by decide)]
            simp
          have hdp : ((c :: a') ++ ' ' :: b).dropWhile notWS = ' ' :: b := by
            rw [List.dropWhile_append_of_pos hall,
              List.dropWhile_cons_of_neg (by decide)]
          rw [tokensOf, splitRuns_rest_cons hdp, htk]
          have htk2 : (c :: a').takeWhile notWS = c :: a' := by
            have := List.takeWhile_append_dropWhile notWS (c :: a')
            rw [hr, List.append_nil] at this
            exact this
          have h2 : tokensOf (c :: a') = [c :: a'] := by
            rw [tokensOf, splitRuns_rest_nil hr, htk2]
            rfl
          rw [h2]
          simp only [List.filter_cons, List.isEmpty_cons, Bool.not_false, if_pos]
          rw [← tokensOf, tokensOf_dropWhile_ws]
          rfl
        | cons c2 t2 =>
          have hwsc2 : isWS c2 = true := by
            have := dropWhile_head_false hr
            simpa [notWS] using this
          have hsplit : c :: a' = (c :: a').takeWhile notWS ++ (c2 :: t2) := by
            have := List.takeWhile_append_dropWhile notWS (c :: a')
            rw [hr] at this
            exact this.symm
          have halltk : ∀ x ∈ (c :: a').takeWhile notWS, notWS x = true :=
            fun x hx => List.mem_takeWhile_imp hx
          have hneg : ¬ notWS c2 = true := by simp [notWS, hwsc2]
          have hlt2 : t2.length ≤ n := by
            have h1 : (c2 :: t2).length ≤ (c :: a').length :=
              List.Sublist.length_le (hr ▸ List.dropWhile_sublist notWS)
            simp only [List.length_cons] at h1 ha ⊢
            omega
          have htk : ((c :: a') ++ ' ' :: b).takeWhile notWS =
              (c :: a').takeWhile notWS := by
            conv_lhs => rw [hsplit]
            rw [List.append_assoc, List.cons_append,
              List.takeWhile_append_of_pos halltk,
              List.takeWhile_cons_of_neg (a := c2) (l := t2 ++ ' ' :: b) hneg]
            simp
          have hdp : ((c :: a') ++ ' ' :: b).dropWhile notWS =
              c2 :: (t2 ++ ' ' :: b) := by
            conv_lhs => rw [hsplit]
            rw [List.append_assoc, List.cons_append,
              List.dropWhile_append_of_pos halltk,
              List.dropWhile_cons_of_neg (a := c2) (l := t2 ++ ' ' :: b) hneg]
          rw [tokensOf, splitRuns_rest_cons hdp, htk]
          have hrec : tokensOf ((t2 ++ ' ' :: b).dropWhile isWS) =
              tokensOf t2 ++ tokensOf b := by
            rw [tokensOf_dropWhile_ws]
            exact ih t2 hlt2 b
          have hbase : tokensOf (c :: a') =
              (c :: a').takeWhile notWS :: tokensOf (t2.dropWhile isWS) := by
            rw [tokensOf, splitRuns_rest_cons hr]
            simp only [List.filter_cons]
            rw [if_pos]
            · rfl
            · have : (c :: a').takeWhile notWS = c :: a'.takeWhile notWS :=
                List.takeWhile_cons_of_pos hcn
              rw [this]
              simp
          rw [hbase]
          simp only [List.filter_cons]
          rw [if_pos]
          · show (c :: a').takeWhile notWS ::
                List.filter (fun w => !w.isEmpty) (splitRuns ((t2 ++ ' ' :: b).dropWhile isWS)) =
              ((c :: a').takeWhile notWS :: tokensOf (t2.dropWhile isWS)) ++ tokensOf b
            rw [← tokensOf, hrec, tokensOf_dropWhile_ws]
            simp
          · have : (c :: a').takeWhile notWS = c :: a'.takeWhile notWS :=
              List.takeWhile_cons_of_pos hcn
            rw [this]
            simp

/-! ### Theorems for ResultFusion (C3, C4) -/

theorem trimWS_within (s : Str) : trimWS s <:+: s := by
  unfold trimWS
  have h1 : s.dropWhile isWS <:+ s := List.dropWhile_suffix isWS
  have h2 : (s.dropWhile isWS).reverse.dropWhile isWS <:+ (s.dropWhile isWS).reverse :=
    List.dropWhile_suffix isWS
  have h3 : ((s.dropWhile isWS).reverse.dropWhile isWS).reverse <+:
      (s.dropWhile isWS).reverse.reverse := by
    exact List.reverse_prefix.mpr h2
  rw [List.reverse_reverse] at h3
  exact h3.isInfix.trans h1.isInfix

theorem char_toNat_ofNat_valid {n : Nat} (h : n.isValidChar) :
    (Char.ofNat n).toNat = n := by
  unfold Char.ofNat
  rw [dif_pos h]
  rfl

theorem toLower_toLower (c : Char) :
    Char.toLower (Char.toLower c) = Char.toLower c := by
  simp only [Char.toLower]
  by_cases h : c.toNat ≥ 65 ∧ c.toNat ≤ 90
  · rw [if_pos h]
    have hv : (c.toNat + 32).isValidChar := Or.inl (by omega)
    have ht : (Char.ofNat (c.toNat + 32)).toNat = c.toNat + 32 :=
      char_toNat_ofNat_valid hv
    rw [if_neg (by rw [ht]; omega)]
  · rw [if_neg h, if_neg h]

theorem lowerStr_idem (s : Str) : lowerStr (lowerStr s) = lowerStr s := by
  simp only [lowerStr, List.map_map]
  exact List.map_congr_left (fun c _ => toLower_toLower c)

theorem strIncludes_nil_right : ∀ hay : Str, strIncludes hay [] = true := by
  intro hay
  cases hay with
  | nil => rfl
  | cons x t => simp [strIncludes]

theorem strIncludes_of_pre {needle t hay : Str} (h : needle ++ t = hay) :
    strIncludes hay needle = true := by
  cases hhay : hay with
  | nil =>
    subst hhay
    have : needle = [] := by
      cases needle with
      | nil => rfl
      | cons x xs => simp at h
    subst this
    rfl
  | cons x h' =>
    subst hhay
    show (needle.isPrefixOf (x :: h') || strIncludes h' needle) = true
    have hp : needle <+: (x :: h') := ⟨t, h⟩
    rw [ List.isPrefixOf_iff_prefix.mpr hp]
    simp

theorem strIncludes_within_aux (needle t : Str) :
    ∀ s : Str, strIncludes (s ++ needle ++ t) needle = true := by
  intro s
  induction s with
  | nil => exact strIncludes_of_pre rfl
  | cons a s' ih =>
    show (needle.isPrefixOf _ || strIncludes (s' ++ needle ++ t) needle) = true
    rw [ih]
    simp

theorem strIncludes_of_within {needle hay : Str} (h : needle <:+: hay) :
    strIncludes hay needle = true := by
  obtain ⟨s, t, hst⟩ := h
  subst hst
  exact strIncludes_within_aux needle t s

theorem mem_foldl_addUnique :
    ∀ (ws : List Str) (acc : List Str) (x : Str),
      x ∈ ws.foldl addUnique acc → x ∈ acc ∨ x ∈ ws := by
  intro ws
  induction ws with
  | nil => intro acc x h; exact Or.inl h
  | cons w ws ih =>
    intro acc x h
    rw [List.foldl_cons] at h
    rcases ih _ x h with h' | h'
    · unfold addUnique at h'
      by_cases hmem : w ∈ acc
      · rw [if_pos hmem] at h'
        exact Or.inl h'
      · rw [if_neg hmem] at h'
        rcases List.mem_append.mp h' with h'' | h''
        · exact Or.inl h''
        · simp only [List.mem_singleton] at h''
          subst h''
          exact Or.inr (List.mem_cons_self _ _)
    · exact Or.inr (List.mem_cons_of_mem _ h')

/-- Every word collected from a single text is (after lowercasing) a
substring of the lowercased text. -/
theorem wordsOf_lower_within {t w : Str} (hw : w ∈ wordsOf t) :
    lowerStr w <:+: lowerStr t := by
  unfold wordsOf at hw
  have hw' := List.mem_filter.mp hw
  rcases List.mem_map.mp hw'.1 with ⟨ch, hch, hcheq⟩
  subst hcheq
  rw [lowerStr_idem]
  have h1 : trimWS ch <:+: ch := trimWS_within ch
  have h2 : ch <:+: t := splitRuns_within hch
  exact List.IsInfix.map Char.toLower (h1.trans h2)

theorem foldl_appendMissing_id {base : Str} :
    ∀ ws : List Str,
      (∀ w ∈ ws, strIncludes (lowerStr base) (lowerStr w) = true) →
      ws.foldl appendMissingWord base = base := by
  intro ws
  induction ws with
  | nil => intro _; rfl
  | cons w ws ih =>
    intro h
    rw [List.foldl_cons]
    have hstep : appendMissingWord base w = base := by
      unfold appendMissingWord
      rw [if_pos (h w (List.mem_cons_self _ _))]
    rw [hstep]
    exact ih (fun w' hw' => h w' (List.mem_cons_of_mem _ hw'))

theorem longestBase_single (t : Str) (conf : ℚ) :
    longestBase [⟨some t, conf⟩] = t := by
  cases t with
  | nil => rfl
  | cons c t' =>
    unfold longestBase
    rw [List.foldl_cons, List.foldl_nil]
    simp

/-- Claim C4: fusing a one-element result list returns that result's text
unchanged (`[]` standing for a `null` text): no token of a text is appended
to that same text as a "missing" word, because each lowercased token is a
substring of the lowercased base. -/
theorem combineOcr_single (ot : Option Str) (conf : ℚ) :
    combineOcrResults [⟨ot, conf⟩] = ot.getD [] := by
  cases ot with
  | none => rfl
  | some t =>
    unfold combineOcrResults
    rw [longestBase_single]
    simp only [Option.getD_some]
    by_cases ht : t.isEmpty = true
    · have : t = [] := by simpa using ht
      subst this
      rfl
    · have hcw : collectWords [⟨some t, conf⟩] = (wordsOf t).foldl addUnique [] := by
        unfold collectWords
        rw [List.foldl_cons, List.foldl_nil]
        simp only [ht, Bool.false_eq_true, if_false]
      rw [hcw]
      apply foldl_appendMissing_id
      intro w hw
      rcases mem_foldl_addUnique _ _ _ hw with h' | h'
      · simp at h'
      · exact strIncludes_of_within (wordsOf_lower_within h')

/-- The tokens of a fused text extend the tokens of the base. -/
theorem tokensOf_foldl_appendMissing :
    ∀ (ws : List Str) (base : Str), ∃ ext,
      tokensOf (ws.foldl appendMissingWord base) = tokensOf base ++ ext := by
  intro ws
  induction ws with
  | nil => intro base; exact ⟨[], by simp⟩
  | cons w ws ih =>
    intro base
    rw [List.foldl_cons]
    rcases ih (appendMissingWord base w) with ⟨ext, hext⟩
    by_cases hc : strIncludes (lowerStr base) (lowerStr w) = true
    · refine ⟨ext, ?_⟩
      rw [hext]
      unfold appendMissingWord
      rw [if_pos hc]
    · refine ⟨tokensOf w ++ ext, ?_⟩
      rw [hext]
      have hstep : appendMissingWord base w = base ++ ' ' :: w := by
        unfold appendMissingWord
        rw [if_neg hc]
      rw [hstep, tokensOf_append_sep base.length base (le_refl _) w]
      simp

/-- Claim C3: union-mode fusion never drops a token of the base (the first
seen longest input text): every whitespace-separated token of the base is
still a whitespace-separated token of the fused output. -/
theorem combineOcr_keeps_base_tokens (results : List OcrData)
    (hne : results ≠ []) :
    ∀ w ∈ tokensOf (longestBase results),
      w ∈ tokensOf (combineOcrResults results) := by
  intro w hw
  rcases tokensOf_foldl_appendMissing (collectWords results) (longestBase results)
    with ⟨ext, hext⟩
  unfold combineOcrResults
  rw [hext]
  exact List.mem_append_left _ hw

/-- Witness for C3 at a concrete input: two results; the token "hello" of
the longest text survives fusion. -/
theorem combineOcr_keeps_base_tokens_witness :
    str "hello" ∈ tokensOf (combineOcrResults
      [⟨some (str "hello world"), 50⟩, ⟨some (str "foobar"), 10⟩]) :=
  combineOcr_keeps_base_tokens
    [⟨some (str "hello world"), 50⟩, ⟨some (str "foobar"), 10⟩]
    (by simp) (str "hello") (by decide)

/-! ## TextNormalizer — src/enhanced-ocr.js `postprocessText` (lines 397-447)
and `enhanceIngredientText` (lines 450-530)

The JavaScript builds its correction regexes at run time with
`new RegExp('\\b' + key + '\\b', 'gi')`.  An unmatched parenthesis in a
key is not a valid RegExp pattern character (ECMA-262 `PatternCharacter` /
Annex B `ExtendedPatternCharacter` both exclude `)`), so `new RegExp`
throws a `SyntaxError`; we model that thrown exception as
`Except.error JsError.invalidRegex`. -/

inductive JsError where
  | engine : Nat → JsError
  | invalidRegex : JsError
deriving DecidableEq, Repr

/-- Case-insensitive literal prefix test (the `i` flag on a literal). -/
def startsWithCI : Str → Str → Bool
  | [], _ => true
  | _ :: _, [] => false
  | p :: ps, c :: cs => (Char.toLower p == Char.toLower c) && startsWithCI ps cs

/-- Consume a case-insensitive literal, returning the remainder. -/
def dropCI : Str → Str → Option Str
  | [], s => some s
  | _ :: _, [] => none
  | p :: ps, c :: cs =>
    if Char.toLower p == Char.toLower c then dropCI ps cs else none

/-- JavaScript `\b`: the boundary between two adjacent positions holds iff
exactly one side is a word character (`\w`); off-string counts as non-word. -/
def jsBoundary (a b : Option Char) : Bool :=
  (match a with | none => false | some c => isWordChar c) !=
  (match b with | none => false | some c => isWordChar c)

/-- Global case-insensitive literal replacement with optional `\b` at the
pattern edges (`lb`/`rb`), scanning the original string left to right and
continuing after each match, as `String.prototype.replace` with a `g` regex
does.  `fuel` bounds the recursion (it starts at `length + 1` and the scan
consumes at least one character per step). -/
def replaceAllBGo (pat rep : Str) (lb rb : Bool) : Nat → Option Char → Str → Str
  | 0, _, s => s
  | _ + 1, _, [] => []
  | fuel + 1, prev, c :: rest =>
    if (!pat.isEmpty) && startsWithCI pat (c :: rest)
        && (!lb || jsBoundary prev (some c))
        && (!rb || jsBoundary (((c :: rest).take pat.length).getLast?)
              ((c :: rest).drop pat.length).head?) then
      rep ++ replaceAllBGo pat rep lb rb fuel
        (((c :: rest).take pat.length).getLast?) ((c :: rest).drop pat.length)
    else
      c :: replaceAllBGo pat rep lb rb fuel (some c) rest

def replaceAllB (lb rb : Bool) (pat rep s : Str) : Str :=
  replaceAllBGo pat rep lb rb (s.length + 1) none s

/-- `/c\s*c/g → c` (the `,\s*,` and `\.\s*\.` collapses); the scan
continues after each match. -/
def collapsePairGo (c : Char) : Nat → Str → Str
  | 0, s => s
  | _ + 1, [] => []
  | fuel + 1, a :: rest =>
    if a == c then
      match rest.dropWhile isWS with
      | b :: tail =>
        if b == c then c :: collapsePairGo c fuel tail
        else a :: collapsePairGo c fuel rest
      | [] => a :: collapsePairGo c fuel rest
    else a :: collapsePairGo c fuel rest

def collapsePair (c : Char) (s : Str) : Str := collapsePairGo c (s.length + 1) s

/-- `/\s+/g → ' '`. -/
def collapseWSGo : Nat → Str → Str
  | 0, s => s
  | _ + 1, [] => []
  | fuel + 1, c :: rest =>
    if isWS c then ' ' :: collapseWSGo fuel (rest.dropWhile isWS)
    else c :: collapseWSGo fuel rest

def collapseWS (s : Str) : Str := collapseWSGo (s.length + 1) s

def isAsciiLetter (c : Char) : Bool :=
  (c ≥ 'a' && c ≤ 'z') || (c ≥ 'A' && c ≤ 'Z')

def isDigitC (c : Char) : Bool := c ≥ '0' && c ≤ '9'

/-- `/([a-z])\,([a-z])/gi → '$1, $2'`; the scan resumes after the second
letter, as a JavaScript global replace does. -/
def fixCommaSpaceGo : Nat → Str → Str
  | 0, s => s
  | _ + 1, [] => []
  | fuel + 1, a :: rest =>
    match rest with
    | ',' :: b :: tail =>
      if isAsciiLetter a && isAsciiLetter b then
        a :: ',' :: ' ' :: b :: fixCommaSpaceGo fuel tail
      else a :: fixCommaSpaceGo fuel rest
    | _ => a :: fixCommaSpaceGo fuel rest

def fixCommaSpace (s : Str) : Str := fixCommaSpaceGo (s.length + 1) s

/-- `/(\w)\:(\w)/g → '$1: $2'`. -/
def fixColonSpaceGo : Nat → Str → Str
  | 0, s => s
  | _ + 1, [] => []
  | fuel + 1, a :: rest =>
    match rest with
    | ':' :: b :: tail =>
      if isWordChar a && isWordChar b then
        a :: ':' :: ' ' :: b :: fixColonSpaceGo fuel tail
      else a :: fixColonSpaceGo fuel rest
    | _ => a :: fixColonSpaceGo fuel rest

def fixColonSpace (s : Str) : Str := fixColonSpaceGo (s.length + 1) s

/-- `/(\d)%(\w)/g → '$1%, $2'`. -/
def fixPercentSpaceGo : Nat → Str → Str
  | 0, s => s
  | _ + 1, [] => []
  | fuel + 1, a :: rest =>
    match rest with
    | '%' :: b :: tail =>
      if isDigitC a && isWordChar b then
        a :: '%' :: ',' :: ' ' :: b :: fixPercentSpaceGo fuel tail
      else a :: fixPercentSpaceGo fuel rest
    | _ => a :: fixPercentSpaceGo fuel rest

def fixPercentSpace (s : Str) : Str := fixPercentSpaceGo (s.length + 1) s

/-- `/\(([\d\.]+)%\)/g → '($1%)'` — the replacement reproduces the match
verbatim, but we keep the scan faithful to the source. -/
def fixParenPercentGo : Nat → Str → Str
  | 0, s => s
  | _ + 1, [] => []
  | fuel + 1, c :: rest =>
    if c == '(' then
      match rest.dropWhile (fun d => isDigitC d || d == '.') with
      | '%' :: ')' :: tail =>
        if (rest.takeWhile (fun d => isDigitC d || d == '.')).isEmpty then
          '(' :: fixParenPercentGo fuel rest
        else
          '(' :: rest.takeWhile (fun d => isDigitC d || d == '.') ++
            '%' :: ')' :: fixParenPercentGo fuel tail
      | _ => '(' :: fixParenPercentGo fuel rest
    else c :: fixParenPercentGo fuel rest

def fixParenPercent (s : Str) : Str := fixParenPercentGo (s.length + 1) s

/-- `/\. /g → ', '`. -/
def periodCommaGo : Nat → Str → Str
  | 0, s => s
  | _ + 1, [] => []
  | fuel + 1, '.' :: ' ' :: tail => ',' :: ' ' :: periodCommaGo fuel tail
  | fuel + 1, c :: rest => c :: periodCommaGo fuel rest

def periodComma (s : Str) : Str := periodCommaGo (s.length + 1) s

/-! ### The nutrition-block removals (postprocessText lines 426-436)

Each regex `head.*?(?=ingredients|\n\n|$)/is` removes its first match: the
head, then the shortest extension up to the next case-insensitive
"ingredients", blank line, or end of string (the `$` alternative always
matches, so a found head always yields a match). -/

def nutriStopsHere (s : Str) : Bool :=
  startsWithCI (str "ingredients") s ||
  (match s with | '\n' :: '\n' :: _ => true | _ => false) ||
  s.isEmpty

/-- Remainder from the first stop position (the lazy `.*?` end). -/
def findStop : Str → Str
  | [] => []
  | c :: rest => if nutriStopsHere (c :: rest) then c :: rest else findStop rest

/-- `nutrition\s*facts?` -/
def nutriHead1 (s : Str) : Option Str :=
  (dropCI (str "nutrition") s).bind (fun r =>
    (dropCI (str "fact") (r.dropWhile isWS)).map (fun r2 =>
      match r2 with
      | c :: rest => if Char.toLower c == 's' then rest else c :: rest
      | [] => []))

/-- `nutritional\s*information` -/
def nutriHead2 (s : Str) : Option Str :=
  (dropCI (str "nutritional") s).bind (fun r =>
    dropCI (str "information") (r.dropWhile isWS))

/-- `serving\s*size` -/
def nutriHead3 (s : Str) : Option Str :=
  (dropCI (str "serving") s).bind (fun r =>
    dropCI (str "size") (r.dropWhile isWS))

/-- `calories(\s*per\s*serving)?` (the greedy optional group is preferred
whenever it matches, since the continuation always succeeds). -/
def nutriHead4 (s : Str) : Option Str :=
  (dropCI (str "calories") s).map (fun r =>
    match (dropCI (str "per") (r.dropWhile isWS)).bind (fun r2 =>
        dropCI (str "serving") (r2.dropWhile isWS)) with
    | some r3 => r3
    | none => r)

/-- Remove the first span starting at a head match and ending at the lazy
stop; a non-global `replace(regex, '')` keeps both sides. -/
def removeFirstSpan (head : Str → Option Str) : Str → Str
  | [] => []
  | c :: rest =>
    match head (c :: rest) with
    | some r => findStop r
    | none => c :: removeFirstSpan head rest

/-- Boundary-aware scan for `\bw\b` (case-insensitive): returns the text
before the match, the last matched character, and the remainder. -/
def findWordBSplit (w : Str) : Option Char → Str → Option (Str × Option Char × Str)
  | _, [] => none
  | prev, c :: rest =>
    if startsWithCI w (c :: rest) && jsBoundary prev (some c)
        && jsBoundary (((c :: rest).take w.length).getLast?)
            ((c :: rest).drop w.length).head? then
      some ([], ((c :: rest).take w.length).getLast?, (c :: rest).drop w.length)
    else
      (findWordBSplit w (some c) rest).map (fun pr => (c :: pr.1, pr.2.1, pr.2.2))

/-- `/\bcalories\b.*?\bfat\b.*?\bsodium\b.*?\bprotein\b/is` removal:
the lazy dots take the earliest following occurrence of each word; if the
chain cannot be completed after the first `calories`, no later start can
complete it either, so the text is unchanged. -/
def removeCaloriesChain (s : Str) : Str :=
  match findWordBSplit (str "calories") none s with
  | none => s
  | some (pre1, lc1, r1) =>
    match findWordBSplit (str "fat") lc1 r1 with
    | none => s
    | some (_, lc2, r2) =>
      match findWordBSplit (str "sodium") lc2 r2 with
      | none => s
      | some (_, lc3, r3) =>
        match findWordBSplit (str "protein") lc3 r3 with
        | none => s
        | some (_, _, r4) => pre1 ++ r4

/-- `[\s\:\.]` — the separator class after "ingredients"/"contains". -/
def isSepClass (c : Char) : Bool := isWS c || c == ':' || c == '.'

/-- `/ingredients[\s\:\.]+([^]*)/i` (postprocessText lines 439-444):
first case-insensitive "ingredients" followed by at least one separator;
the greedy run is consumed and the capture is the whole remainder. -/
def findIngredientsTail : Str → Option Str
  | [] => none
  | c :: rest =>
    match dropCI (str "ingredients") (c :: rest) with
    | some (d :: r2) =>
      if isSepClass d then some (r2.dropWhile isSepClass)
      else findIngredientsTail rest
    | _ => findIngredientsTail rest

/-- src/enhanced-ocr.js lines 401-423: the literal replacement chain of
`postprocessText` followed by `.trim()`. -/
def postprocessReplacements (t0 : Str) : Str :=
  let t := replaceAllB false false (str "c0rn") (str "corn") t0
  let t := replaceAllB true true (str "fiour") (str "flour") t
  let t := replaceAllB true true (str "oll") (str "oil") t
  let t := replaceAllB true true (str "sall") (str "salt") t
  let t := replaceAllB true false (str "water,") (str "water,") t
  let t := replaceAllB true false (str "sugar,") (str "sugar,") t
  let t := collapsePair ',' t
  let t := collapsePair '.' t
  let t := replaceAllB false false (str "lngredients") (str "Ingredients") t
  let t := replaceAllB true true (str "contams") (str "contains") t
  let t := replaceAllB true true (str "allergems") (str "allergens") t
  let t := replaceAllB false false (str "g1uten") (str "gluten") t
  let t := replaceAllB false false (str "suger") (str "sugar") t
  let t := replaceAllB false false (str "g1ucose") (str "glucose") t
  let t := replaceAllB false false (str "mi1k") (str "milk") t
  let t := replaceAllB false false (str "w1th") (str "with") t
  let t := replaceAllB false false (str "rnay") (str "may") t
  let t := replaceAllB false false (str "waler") (str "water") t
  let t := replaceAllB false false (str "wafer") (str "water") t
  let t := replaceAllB false false (str "frorn") (str "from") t
  let t := replaceAllB false false (str "preservatlve") (str "preservative") t
  trimWS t

/-- src/enhanced-ocr.js lines 426-436: apply the five nutrition regexes in
order, each removing only its first match. -/
def removeNutritionBlocks (t0 : Str) : Str :=
  let t := removeFirstSpan nutriHead1 t0
  let t := removeFirstSpan nutriHead2 t
  let t := removeFirstSpan nutriHead3 t
  let t := removeFirstSpan nutriHead4 t
  removeCaloriesChain t

/-- src/enhanced-ocr.js lines 439-444: if the ingredients marker is found,
replace the whole text with "Ingredients: " plus the trimmed capture. -/
def ingredientsIsolate (p2 : Str) : Str :=
  match findIngredientsTail p2 with
  | some tail => str "Ingredients: " ++ trimWS tail
  | none => p2

/-- src/enhanced-ocr.js lines 397-447, `postprocessText`.  `!text` returns
`""` for `null`/`undefined`/`""`; otherwise the replacement chain (which
ends in `.trim()`), the nutrition-block removals, the ingredients
isolation, and the final `.trim()`. -/
def postprocessText (text : Option Str) : Str :=
  match text with
  | none => []
  | some t =>
    if t.isEmpty then []
    else trimWS (ingredientsIsolate (removeNutritionBlocks (postprocessReplacements t)))

/-! ### enhanceIngredientText -/

/-- One optional letter of `ingr?e?d?i?e?nts?` (case-insensitive, greedy
with backtracking: the taking branch is tried before the skipping one). -/
def tryOpt (c : Char) (k : Str → Option Str) : Str → Option Str
  | [] => k []
  | x :: rest =>
    if Char.toLower x == Char.toLower c then
      match k rest with
      | some v => some v
      | none => k (x :: rest)
    else k (x :: rest)

/-- After the group-1 alternation: `[\s\:\.]+(.*)` — at least one
separator, the greedy run, then the capture up to the first line
terminator (`.` without the `s` flag). -/
def prefixCapture (r : Str) : Option Str :=
  match r with
  | d :: r2 =>
    if isSepClass d then
      some ((r2.dropWhile isSepClass).takeWhile
        (fun c => !(c == '\n') && !(c == '\r')))
    else none
  | [] => none

def alt2Cont (r : Str) : Option Str :=
  (dropCI (str "nt") r).bind (tryOpt 's' prefixCapture)

/-- The `ingr?e?d?i?e?nts?` alternative. -/
def matchAlt2 (s : Str) : Option Str :=
  (dropCI (str "ing") s).bind
    (tryOpt 'r' (tryOpt 'e' (tryOpt 'd' (tryOpt 'i' (tryOpt 'e' alt2Cont)))))

/-- src/enhanced-ocr.js line 458: the anchored prefix regex
`/^(ingredients|ingr?e?d?i?e?nts?|ingred|contents)[\s\:\.]+(.*)/i`,
alternatives tried in order; returns the second capture. -/
def matchIngredHead (s : Str) : Option Str :=
  match (dropCI (str "ingredients") s).bind prefixCapture with
  | some v => some v
  | none =>
    match matchAlt2 s with
    | some v => some v
    | none =>
      match (dropCI (str "ingred") s).bind prefixCapture with
      | some v => some v
      | none => (dropCI (str "contents") s).bind prefixCapture

/-- src/enhanced-ocr.js lines 458-462: replace a recognized prefix with
"INGREDIENTS: " + the rest of the first line. -/
def enhanceStep1 (t : Str) : Str :=
  match matchIngredHead t with
  | some g2 => str "INGREDIENTS: " ++ g2
  | none => t

/-- src/enhanced-ocr.js lines 465-493: the OCR-error dictionary, in object
insertion order. -/
def enhanceDict : List (Str × Str) :=
  [ (str "c0rn", str "corn"), (str "fiour", str "flour"), (str "oll", str "oil"),
    (str "sall", str "salt"), (str "lngredients", str "Ingredients"),
    (str "contams", str "contains"), (str "allergems", str "allergens"),
    (str "g1uten", str "gluten"), (str "suger", str "sugar"),
    (str "g1ucose", str "glucose"), (str "mi1k", str "milk"),
    (str "w1th", str "with"), (str "rnay", str "may"), (str "waler", str "water"),
    (str "wafer", str "water"), (str "frorn", str "from"),
    (str "preservatlve", str "preservative"),
    (str "emulsi ier", str "emulsifier"), (str "emulsi tier", str "emulsifier"),
    (str "NIIILK", str "MILK"), (str "NIILK", str "MILK"),
    (str "lecithin)", str "lecithin),"), (str "TRACES", str "TRACES"),
    (str "WHEATS", str "WHEAT"), (str "NUTS!", str "NUTS"),
    (str "NUTS1", str "NUTS"), (str "NUTSI", str "NUTS") ]

/-- A dictionary key containing an unmatched parenthesis makes
`new RegExp('\\b' + key + '\\b', 'gi')` throw a SyntaxError. -/
def hasRegexParen (key : Str) : Bool := key.any (fun c => c == '(' || c == ')')

/-- src/enhanced-ocr.js lines 495-497: the dictionary loop; each iteration
first compiles the pattern (which can throw), then replaces globally with
word boundaries, case-insensitively. -/
def applyDict : List (Str × Str) → Str → Except JsError Str
  | [], s => .ok s
  | (k, r) :: rest, s =>
    if hasRegexParen k then .error .invalidRegex
    else applyDict rest (replaceAllB true true k r s)

/-- src/enhanced-ocr.js lines 500-509: the punctuation chain. -/
def enhanceStep3 (t0 : Str) : Str :=
  let t := collapsePair ',' t0
  let t := collapsePair '.' t
  let t := collapseWS t
  let t := fixCommaSpace t
  let t := fixColonSpace t
  let t := fixCommaSpace t
  let t := fixPercentSpace t
  let t := fixParenPercent t
  periodComma t

/-- `[\s\:\.]+([^\.]*)(\.|$)` after a clause keyword: returns the first
capture and the remainder after the whole match. -/
def clauseTail (r : Str) : Option (Str × Str) :=
  match r with
  | d :: r2 =>
    if isSepClass d then
      let afterRun := r2.dropWhile isSepClass
      let cap := afterRun.takeWhile (fun x => !(x == '.'))
      match afterRun.dropWhile (fun x => !(x == '.')) with
      | '.' :: r4 => some (cap, r4)
      | r3 => some (cap, r3)
    else none
  | [] => none

/-- `contains[\s\:\.]+([^\.]*)(\.|$)` at the current position. -/
def tryContainsAt (s : Str) : Option (Str × Str) :=
  (dropCI (str "contains") s).bind clauseTail

/-- `may\s+contain[\s\:\.]+([^\.]*)(\.|$)` at the current position. -/
def tryMayContainAt (s : Str) : Option (Str × Str) :=
  (dropCI (str "may") s).bind (fun r =>
    match r with
    | w :: r2 =>
      if isWS w then (dropCI (str "contain") (r2.dropWhile isWS)).bind clauseTail
      else none
    | [] => none)

/-- Scan for the first position where `tryAt` matches; returns the matched
text `m0` and the first capture `m1`. -/
def findFirstMatch (tryAt : Str → Option (Str × Str)) : Str → Option (Str × Str)
  | [] => none
  | c :: rest =>
    match tryAt (c :: rest) with
    | some (m1, after) =>
      some ((c :: rest).take ((c :: rest).length - after.length), m1)
    | none => findFirstMatch tryAt rest

/-- First occurrence of a literal string removed (the string form of
`String.prototype.replace`). -/
def removeFirstLit (pat : Str) : Str → Str
  | [] => []
  | c :: rest =>
    if pat.isPrefixOf (c :: rest) then (c :: rest).drop pat.length
    else c :: removeFirstLit pat rest

/-- src/enhanced-ocr.js lines 512-518 and 521-527: pull the clause out of
the body and append it as a labelled line. -/
def relocateClause (tryAt : Str → Option (Str × Str)) (label : Str) (t : Str) : Str :=
  match findFirstMatch tryAt t with
  | none => t
  | some (m0, m1) => trimWS (removeFirstLit m0 t) ++ label ++ trimWS m1

/-- The body of `enhanceIngredientText` past the guard.  The dictionary loop
(step 2) raises before steps 3-5 can run, but the later steps are embedded
faithfully. -/
def enhanceCore (t : Str) : Except JsError Str :=
  (applyDict enhanceDict (enhanceStep1 t)).map (fun s2 =>
    trimWS (relocateClause tryMayContainAt (str "\n\nMAY CONTAIN: ")
      (relocateClause tryContainsAt (str "\n\nCONTAINS: ") (enhanceStep3 s2))))

/-- src/enhanced-ocr.js lines 450-530, `enhanceIngredientText`.  The guard
`if (!text || !text.trim()) return text;` returns the input itself —
`null` stays `null`, the empty string stays empty. -/
def enhanceIngredientText (text : Option Str) : Except JsError (Option Str) :=
  match text with
  | none => .ok none
  | some t =>
    if t.isEmpty || (trimWS t).isEmpty then .ok (some t)
    else (enhanceCore t).map some

/-- The text-normalization pipeline as run by `enhanceAndRecognizeText`
(lines 614-615): `postprocessText` then `enhanceIngredientText`. -/
def normalizeText (t : Str) : Except JsError Str :=
  (enhanceIngredientText (some (postprocessText (some t)))).map (fun o => o.getD [])

/-! ### Theorems for TextNormalizer (C5, C8) -/

theorem dropWhile_dropWhile_self {α : Type} (p : α → Bool) (l : List α) :
    (l.dropWhile p).dropWhile p = l.dropWhile p := by
  cases h : l.dropWhile p with
  | nil => rfl
  | cons c t =>
    have hc : p c = false := dropWhile_head_false h
    exact List.dropWhile_cons_of_neg (by simp [hc])

theorem trimWS_idem (y : Str) : trimWS (trimWS y) = trimWS y := by
  by_cases hR : trimWS y = []
  · rw [hR]
    rfl
  · have hpre : trimWS y <+: y.dropWhile isWS := by
      have h2 : ((y.dropWhile isWS).reverse.dropWhile isWS) <:+
          (y.dropWhile isWS).reverse := List.dropWhile_suffix isWS
      have h3 := List.reverse_prefix.mpr h2
      rwa [List.reverse_reverse] at h3
    have hfront : (trimWS y).dropWhile isWS = trimWS y := by
      cases hc : trimWS y with
      | nil => rfl
      | cons c t =>
        obtain ⟨u, hu⟩ := hpre
        rw [hc] at hu
        have hhead : y.dropWhile isWS = c :: (t ++ u) := by
          rw [← hu]
          simp
        have hcw : isWS c = false := dropWhile_head_false hhead
        exact List.dropWhile_cons_of_neg (by simp [hcw])
    have hback : (trimWS y).reverse.dropWhile isWS = (trimWS y).reverse := by
      have hrev : (trimWS y).reverse = (y.dropWhile isWS).reverse.dropWhile isWS := by
        unfold trimWS
        rw [List.reverse_reverse]
      rw [hrev, dropWhile_dropWhile_self]
    show ((((trimWS y).dropWhile isWS).reverse).dropWhile isWS).reverse = trimWS y
    rw [hfront, hback, List.reverse_reverse]

/-- The output of `postprocessText` is already trimmed. -/
theorem postprocessText_some (t : Str) :
    postprocessText (some t) =
      if t.isEmpty then []
      else trimWS (ingredientsIsolate (removeNutritionBlocks (postprocessReplacements t))) :=
  rfl

theorem trimWS_postprocessText (x : Option Str) :
    trimWS (postprocessText x) = postprocessText x := by
  cases x with
  | none => rfl
  | some t =>
    rw [postprocessText_some]
    by_cases h : t.isEmpty = true
    · rw [if_pos h]
      rfl
    · rw [if_neg h]
      exact trimWS_idem _

theorem applyDict_raises : ∀ s : Str,
    applyDict enhanceDict s = Except.error JsError.invalidRegex :=
  fun _ => rfl

theorem enhanceCore_raises (t : Str) :
    enhanceCore t = Except.error JsError.invalidRegex := by
  unfold enhanceCore
  rw [applyDict_raises]
  rfl

/-- Claim C5 (amended): the normalization pipeline is not idempotent as a
string transformer because it does not in general return a string at all:
unless the post-processed text is empty, the dictionary loop of
`enhanceIngredientText` throws a SyntaxError while compiling
`new RegExp('\\blecithin)\\b', 'gi')` (unmatched parenthesis).  When the
post-processed text is empty the pipeline returns the empty string, and a
second application returns it unchanged. -/
theorem normalizeText_spec (t : Str) :
    (normalizeText t =
      if (postprocessText (some t)).isEmpty then Except.ok []
      else Except.error JsError.invalidRegex) ∧
    normalizeText [] = Except.ok [] := by
  refine ⟨?_, rfl⟩
  have htr : trimWS (postprocessText (some t)) = postprocessText (some t) :=
    trimWS_postprocessText (some t)
  have hsome : ∀ u : Str, enhanceIngredientText (some u) =
      if u.isEmpty || (trimWS u).isEmpty then Except.ok (some u)
      else Except.map some (enhanceCore u) := fun _ => rfl
  unfold normalizeText
  rw [hsome]
  by_cases h : (postprocessText (some t)).isEmpty = true
  · have hcond : ((postprocessText (some t)).isEmpty ||
        (trimWS (postprocessText (some t))).isEmpty) = true := by
      rw [h]
      rfl
    rw [if_pos hcond, if_pos h]
    have hnil : postprocessText (some t) = [] := by
      simpa using h
    rw [hnil]
    rfl
  · have hcond : ((postprocessText (some t)).isEmpty ||
        (trimWS (postprocessText (some t))).isEmpty) = false := by
      rw [htr]
      cases hb : (postprocessText (some t)).isEmpty
      · rfl
      · exact absurd hb h
    rw [if_neg (by rw [hcond]; exact Bool.false_ne_true), if_neg h]
    rw [enhanceCore_raises]
    rfl

/-- Counterexample to C5 as stated: on the input "a" the pipeline does not
return a string at all — it raises a SyntaxError — so applying it to "its
own output" cannot equal applying it once. -/
theorem normalizeText_not_idempotent :
    normalizeText (str "a") = Except.error JsError.invalidRegex := rfl

/-- Counterexample to C8 as stated: `enhanceIngredientText(null)` returns
`null` (its input), not the empty string. -/
theorem enhance_null_counterexample :
    enhanceIngredientText none = Except.ok none ∧
    enhanceIngredientText none ≠ Except.ok (some ([] : Str)) := by
  refine ⟨rfl, ?_⟩
  intro h
  rw [show enhanceIngredientText none = Except.ok none from rfl] at h
  exact Option.noConfusion (Except.ok.inj h)

/-- Claim C8 (amended): on empty, `null`, or `undefined` input neither step
raises; `postprocessText` returns the empty string, while
`enhanceIngredientText` returns its falsy input unchanged (`null` stays
`null`, the empty string stays empty). -/
theorem normalize_steps_nullish :
    postprocessText none = ([] : Str) ∧
    postprocessText (some ([] : Str)) = ([] : Str) ∧
    enhanceIngredientText none = Except.ok none ∧
    enhanceIngredientText (some ([] : Str)) = Except.ok (some ([] : Str)) :=
  ⟨rfl, rfl, rfl, rfl⟩

/-! ## RecognitionOrchestrator — src/enhanced-ocr.js `enhanceAndRecognizeText`
(lines 533-632)

The preprocessing stages and the two `performOCR` calls are external
(asynchronous) collaborators; we model each pass by its outcome, an
`Except JsError OcrData` (`.error` = the engine threw).  Each pass sits in
its own `try/catch`: a successful pass is pushed onto `results`, a failed
one is only logged.  The tail of the function (best-confidence selection,
fusion, text normalization) is `runOcrPipeline`. -/

structure FinalResult where
  text : Str
  confidence : ℚ
deriving DecidableEq, Repr

/-- src/enhanced-ocr.js lines 593-602: best-confidence selection
(`result.confidence > bestConfidence`, starting from `''`/0; note the
selected `bestText` is the raw, possibly `null`, `result.text`). -/
def bestOf (results : List OcrData) : Option Str × ℚ :=
  results.foldl
    (fun (acc : Option Str × ℚ) r =>
      if r.confidence > acc.2 then (r.text, r.confidence) else acc)
    (some [], 0)

/-- src/enhanced-ocr.js lines 608-612: combine only when more than one
result was collected, else keep the best text. -/
def combinedOf (results : List OcrData) : Option Str :=
  if results.length > 1 then some (combineOcrResults results) else (bestOf results).1

/-- src/enhanced-ocr.js lines 592-624: the tail of
`enhanceAndRecognizeText` once the result set is fixed; a SyntaxError
thrown by the enhancement step propagates through the outer `catch`. -/
def runOcrPipeline (results : List OcrData) : Except JsError FinalResult :=
  match enhanceIngredientText (some (postprocessText (combinedOf results))) with
  | .error e => .error e
  | .ok o => .ok ⟨o.getD [], (bestOf results).2⟩

/-- src/enhanced-ocr.js lines 533-632, `enhanceAndRecognizeText`, as a
function of the two per-pass outcomes: each pass has its own `try/catch`
(lines 558-570 and 576-590), so a failing pass contributes nothing to
`results` and the sibling pass still contributes. -/
def enhanceAndRecognizeText (pass1 pass2 : Except JsError OcrData) :
    Except JsError FinalResult :=
  let results : List OcrData :=
    (match pass1 with | .ok r => [r] | .error _ => []) ++
    (match pass2 with | .ok r => [r] | .error _ => [])
  match enhanceIngredientText (some (postprocessText (combinedOf results))) with
  | .error e => .error e
  | .ok o => .ok ⟨o.getD [], (bestOf results).2⟩

theorem enhanceIngredientText_error_shape (x : Option Str) (e : JsError)
    (h : enhanceIngredientText x = .error e) : e = JsError.invalidRegex := by
  cases x with
  | none => cases h
  | some t =>
    rw [show enhanceIngredientText (some t) =
        (if t.isEmpty || (trimWS t).isEmpty then Except.ok (some t)
         else Except.map some (enhanceCore t)) from rfl] at h
    by_cases hg : (t.isEmpty || (trimWS t).isEmpty) = true
    · rw [if_pos hg] at h
      cases h
    · rw [if_neg hg, enhanceCore_raises] at h
      cases h
      rfl

theorem runOcrPipeline_no_engine_error (rs : List OcrData) (n : Nat) :
    runOcrPipeline rs ≠ .error (.engine n) := by
  unfold runOcrPipeline
  cases henh : enhanceIngredientText (some (postprocessText (combinedOf rs))) with
  | ok o => simp [henh]
  | error e =>
    simp only [henh]
    have he := enhanceIngredientText_error_shape _ _ henh
    subst he
    intro h
    cases h

/-- Claim C7: pass isolation.  The output of `enhanceAndRecognizeText` is a
function of the list of successful pass results alone (an erroring pass is
excluded and the sibling pass still contributes), and a per-pass engine
error is never propagated: any error the orchestration returns is the
normalizer's SyntaxError, never an engine error. -/
theorem enhanceAndRecognize_isolates_passes (p1 p2 : Except JsError OcrData) :
    enhanceAndRecognizeText p1 p2 =
      runOcrPipeline ((match p1 with | .ok r => [r] | .error _ => []) ++
        (match p2 with | .ok r => [r] | .error _ => [])) ∧
    ∀ n : Nat, enhanceAndRecognizeText p1 p2 ≠ .error (.engine n) := by
  have heq : enhanceAndRecognizeText p1 p2 =
      runOcrPipeline ((match p1 with | .ok r => [r] | .error _ => []) ++
        (match p2 with | .ok r => [r] | .error _ => [])) := by
    cases p1 <;> cases p2 <;> rfl
  refine ⟨heq, ?_⟩
  intro n
  rw [heq]
  exact runOcrPipeline_no_engine_error _ n

/-! ## FilterBank adaptive threshold — src/enhanced-ocr.js lines 163-211

The buffer is the flat RGBA `data` array (stride 4), with channel values in
`ℚ`.  The JavaScript thresholds in place: the local mean for a pixel is
computed over the partially-binarized buffer (earlier pixels in row-major
order are already 0/255).  The row chunking (lines 176-177, 50 rows per
chunk with a cooperative yield) composes to the same row-major iteration. -/

/-- Line 164: `width < 500 || height < 200`. -/
def isSmallCrop (w h : Nat) : Bool := w < 500 || h < 200

/-- Line 202: `const C = isSmallCrop ? 10 : 5`. -/
def adaptiveBias (w h : Nat) : ℚ := if isSmallCrop w h then 10 else 5

/-- Modelled from the spec (§4.2): the bias the specification claims,
`10 if min(width,height) < 500 or height < 200 else 5`. -/
def specBias (w h : Nat) : ℚ := if min w h < 500 ∨ h < 200 then 10 else 5

/-- Line 170: `max(5, floor(min(width,height) / 20))`. -/
def blockSize (w h : Nat) : Nat := max 5 (min w h / 20)

/-- Lines 192/201: `(data[idx] + data[idx+1] + data[idx+2]) / 3`. -/
def avgAt (w : Nat) (d : List ℚ) (x y : Nat) : ℚ :=
  (d.getD ((y * w + x) * 4) 0 + d.getD ((y * w + x) * 4 + 1) 0 +
    d.getD ((y * w + x) * 4 + 2) 0) / 3

/-- Lines 182-197: local mean over the clipped block neighbourhood
(`Nat` subtraction is the `Math.max(0, ·)` clip). -/
def localMean (w h : Nat) (d : List ℚ) (x y : Nat) : ℚ :=
  let b := blockSize w h
  let sc := (List.range' (y - b) (min h (y + b) - (y - b))).foldl
    (fun (acc : ℚ × Nat) ly =>
      (List.range' (x - b) (min w (x + b) - (x - b))).foldl
        (fun acc2 lx => (acc2.1 + avgAt w d lx ly, acc2.2 + 1)) acc)
    (0, 0)
  sc.1 / (sc.2 : ℚ)

/-- Line 205: write the new value to the three colour channels. -/
def setPixel (w : Nat) (d : List ℚ) (x y : Nat) (v : ℚ) : List ℚ :=
  ((d.set ((y * w + x) * 4) v).set ((y * w + x) * 4 + 1) v).set
    ((y * w + x) * 4 + 2) v

/-- Lines 199-205: binarize one pixel against the local mean minus the bias. -/
def processPixel (w h : Nat) (d : List ℚ) (x y : Nat) : List ℚ :=
  setPixel w d x y
    (if avgAt w d x y < localMean w h d x y - adaptiveBias w h then 0 else 255)

def processRow (w h y : Nat) (d : List ℚ) : List ℚ :=
  (List.range w).foldl (fun d x => processPixel w h d x y) d

/-- Lines 176-211: the whole adaptive-threshold pass, row-major. -/
def adaptivePass (w h : Nat) (d : List ℚ) : List ℚ :=
  (List.range h).foldl (fun d y => processRow w h y d) d

/-- The buffer state just before pixel (x, y) is processed: all rows above
`y` and the pixels left of `x` in row `y`. -/
def passBefore (w h : Nat) (d : List ℚ) (x y : Nat) : List ℚ :=
  (List.range x).foldl (fun d x' => processPixel w h d x' y)
    ((List.range y).foldl (fun d y' => processRow w h y' d) d)

/-! ### Theorems for the adaptive threshold (C6) -/

theorem getD_set_ne {l : List ℚ} {i j : Nat} {v : ℚ} (h : i ≠ j) :
    (l.set i v).getD j 0 = l.getD j 0 := by
  simp [List.getD_eq_getElem?_getD, List.getElem?_set_ne h]

theorem length_setPixel (w : Nat) (d : List ℚ) (x y : Nat) (v : ℚ) :
    (setPixel w d x y v).length = d.length := by
  simp [setPixel]

theorem length_processPixel (w h : Nat) (d : List ℚ) (x y : Nat) :
    (processPixel w h d x y).length = d.length := by
  simp [processPixel, length_setPixel]

theorem length_foldl_processPixel (w h y' : Nat) :
    ∀ (xs : List Nat) (d : List ℚ),
      (xs.foldl (fun d x' => processPixel w h d x' y') d).length = d.length := by
  intro xs
  induction xs with
  | nil => intro d; rfl
  | cons a xs ih =>
    intro d
    rw [List.foldl_cons, ih, length_processPixel]

theorem length_processRow (w h y' : Nat) (d : List ℚ) :
    (processRow w h y' d).length = d.length :=
  length_foldl_processPixel w h y' (List.range w) d

theorem length_foldl_processRow (w h : Nat) :
    ∀ (ys : List Nat) (d : List ℚ),
      (ys.foldl (fun d y' => processRow w h y' d) d).length = d.length := by
  intro ys
  induction ys with
  | nil => intro d; rfl
  | cons a ys ih =>
    intro d
    rw [List.foldl_cons, ih, length_processRow]

theorem length_passBefore (w h : Nat) (d : List ℚ) (x y : Nat) :
    (passBefore w h d x y).length = d.length := by
  unfold passBefore
  rw [length_foldl_processPixel, length_foldl_processRow]

/-- A write at a different pixel leaves channel 0 of pixel `p` unchanged. -/
theorem getD_setPixel_other (w : Nat) (d : List ℚ) (x' y' : Nat) (v : ℚ)
    (p : Nat) (hne : y' * w + x' ≠ p) :
    (setPixel w d x' y' v).getD (p * 4) 0 = d.getD (p * 4) 0 := by
  unfold setPixel
  generalize hq : y' * w + x' = q at hne ⊢
  rw [getD_set_ne (by omega), getD_set_ne (by omega), getD_set_ne (by omega)]

theorem getD_processPixel_other (w h : Nat) (d : List ℚ) (x' y' : Nat)
    (p : Nat) (hne : y' * w + x' ≠ p) :
    (processPixel w h d x' y').getD (p * 4) 0 = d.getD (p * 4) 0 :=
  getD_setPixel_other w d x' y' _ p hne

theorem getD_foldl_cols_other (w h y' : Nat) (p : Nat) :
    ∀ (xs : List Nat) (d : List ℚ), (∀ x' ∈ xs, y' * w + x' ≠ p) →
      (xs.foldl (fun d x' => processPixel w h d x' y') d).getD (p * 4) 0 =
        d.getD (p * 4) 0 := by
  intro xs
  induction xs with
  | nil => intro d _; rfl
  | cons a xs ih =>
    intro d hall
    rw [List.foldl_cons, ih _ (fun x' hx' => hall x' (List.mem_cons_of_mem _ hx')),
      getD_processPixel_other w h d a y' p (hall a (List.mem_cons_self _ _))]

theorem getD_processRow_other (w h y' : Nat) (d : List ℚ) (p x y : Nat)
    (hp : p = y * w + x) (hx : x < w) (hy : y + 1 ≤ y') :
    (processRow w h y' d).getD (p * 4) 0 = d.getD (p * 4) 0 := by
  apply getD_foldl_cols_other
  intro x' _
  subst hp
  have h1 : (y + 1) * w ≤ y' * w := Nat.mul_le_mul_right w hy
  have h2 : y * w + x < y * w + w := Nat.add_lt_add_left hx _
  have h3 : y * w + w = (y + 1) * w := (Nat.succ_mul y w).symm
  have hlt : y * w + x < y' * w + x' :=
    lt_of_lt_of_le (h3 ▸ h2) (le_trans h1 (Nat.le_add_right _ _))
  exact Nat.ne_of_gt hlt

theorem getD_foldl_rows_other (w h : Nat) (p x y : Nat)
    (hp : p = y * w + x) (hx : x < w) :
    ∀ (ys : List Nat) (d : List ℚ), (∀ y' ∈ ys, y + 1 ≤ y') →
      (ys.foldl (fun d y' => processRow w h y' d) d).getD (p * 4) 0 =
        d.getD (p * 4) 0 := by
  intro ys
  induction ys with
  | nil => intro d _; rfl
  | cons a ys ih =>
    intro d hall
    rw [List.foldl_cons, ih _ (fun y' hy' => hall y' (List.mem_cons_of_mem _ hy')),
      getD_processRow_other w h a d p x y hp hx (hall a (List.mem_cons_self _ _))]

/-- Channel 0 of pixel (x, y) immediately after its own write. -/
theorem getD_processPixel_self (w h : Nat) (d : List ℚ) (x y : Nat)
    (hlen : (y * w + x) * 4 + 2 < d.length) :
    (processPixel w h d x y).getD ((y * w + x) * 4) 0 =
      (if avgAt w d x y < localMean w h d x y - adaptiveBias w h
       then 0 else 255) := by
  unfold processPixel setPixel
  generalize hq : y * w + x = q at hlen ⊢
  rw [getD_set_ne (by omega), getD_set_ne (by omega)]
  simp [List.getD_eq_getElem?_getD, List.getElem?_set_self (by omega : q * 4 < d.length)]

/-- Split `range n` at a position `k < n`. -/
theorem range_split (n k : Nat) (hk : k < n) :
    List.range n = List.range k ++ k :: List.range' (k + 1) (n - k - 1) := by
  rw [List.range_eq_range', show n = (n - k) + k from by omega,
    ← List.range'_append_1 0 k (n - k)]
  congr 1
  · rw [List.range_eq_range']
  · rw [Nat.zero_add, show n - k = (n - k - 1) + 1 from by omega, List.range'_succ,
      show n - k - 1 + 1 + k - k - 1 = n - k - 1 from by omega]

theorem pixel_lt_area {w h x y : Nat} (hx : x < w) (hy : y < h) :
    y * w + x < w * h := by
  have h1 : (y + 1) * w ≤ h * w := Nat.mul_le_mul_right w hy
  have h2 : y * w + x < y * w + w := Nat.add_lt_add_left hx _
  have h3 : y * w + w = (y + 1) * w := (Nat.succ_mul y w).symm
  have h4 : y * w + x < h * w := lt_of_lt_of_le (h3 ▸ h2) h1
  rwa [Nat.mul_comm h w] at h4

/-- Claim C6 (amended): in the adaptive-threshold filter the bias is 10
exactly when `width < 500` or `height < 200` (the code tests the width
alone, not `min(width,height)`), and pixel (x, y) goes black (0) exactly
when its channel average is below the local mean minus that bias, both
read from the buffer state at the moment the pixel is processed (the
algorithm binarizes in place). -/
theorem adaptivePass_pixel_rule (w h : Nat) (d : List ℚ) (x y : Nat)
    (hx : x < w) (hy : y < h) (hd : d.length = 4 * (w * h)) :
    (adaptivePass w h d).getD ((y * w + x) * 4) 0 =
      (if avgAt w (passBefore w h d x y) x y <
          localMean w h (passBefore w h d x y) x y - adaptiveBias w h
       then 0 else 255) ∧
    adaptiveBias w h = (if w < 500 ∨ h < 200 then 10 else 5) := by
  constructor
  · have hrange := range_split h y hy
    have hrangew := range_split w x hx
    unfold adaptivePass
    rw [hrange, List.foldl_append, List.foldl_cons]
    rw [getD_foldl_rows_other w h (y * w + x) x y rfl hx _ _
      (by intro y' hy'; exact (List.mem_range'_1.mp hy').1)]
    show (processRow w h y (passBefore w h d 0 y)).getD ((y * w + x) * 4) 0 = _
    unfold processRow
    rw [hrangew, List.foldl_append, List.foldl_cons]
    rw [getD_foldl_cols_other w h y (y * w + x) _ _
      (by
        intro x' hx'
        have hge := (List.mem_range'_1.mp hx').1
        omega)]
    show (processPixel w h (passBefore w h d x y) x y).getD ((y * w + x) * 4) 0 = _
    apply getD_processPixel_self
    rw [length_passBefore, hd]
    have hpix : y * w + x < w * h := pixel_lt_area hx hy
    have key : ∀ p N : Nat, p < N → p * 4 + 2 < 4 * N := by
      intro p N hpn
      omega
    exact key _ _ hpix
  · unfold adaptiveBias isSmallCrop
    by_cases h1 : w < 500
    · rw [if_pos (by simp [h1]), if_pos (Or.inl h1)]
    · by_cases h2 : h < 200
      · rw [if_pos (by simp [h2]), if_pos (Or.inr h2)]
      · rw [if_neg (by simp [h1, h2]), if_neg (by omega)]

/-- Counterexample to C6 as stated: a 600×300 buffer is not a "small crop"
for the code (`width < 500` fails), so the bias is 5, while the spec's
`min(width,height) < 500` rule would demand 10. -/
theorem adaptiveBias_counterexample :
    adaptiveBias 600 300 = 5 ∧ specBias 600 300 = 10 ∧
    adaptiveBias 600 300 ≠ specBias 600 300 := by
  refine ⟨by decide, by decide, by decide⟩

/-- Witness for the amended C6 on a 1×1 buffer: the single pixel is its own
neighbourhood, so the mean equals its average and the pixel stays white. -/
theorem adaptivePass_pixel_rule_witness :
    (0 : Nat) < 1 ∧ ([(100 : ℚ), 100, 100, 255] : List ℚ).length = 4 * (1 * 1) ∧
    ((adaptivePass 1 1 [100, 100, 100, 255]).getD ((0 * 1 + 0) * 4) 0 =
      (if avgAt 1 (passBefore 1 1 [100, 100, 100, 255] 0 0) 0 0 <
          localMean 1 1 (passBefore 1 1 [100, 100, 100, 255] 0 0) 0 0 -
            adaptiveBias 1 1
       then 0 else 255) ∧
     adaptiveBias 1 1 = (if 1 < 500 ∨ 1 < 200 then 10 else 5)) :=
  ⟨by decide, by decide,
    adaptivePass_pixel_rule 1 1 [100, 100, 100, 255] 0 0 (by decide) (by decide)
      (by decide)⟩

end GFA
